import Mathlib

/-!
Verification of the base64-secret library: a base64 codec whose 64-symbol
alphabet is a key-derived permutation of the canonical base64-url symbol set.

Embedding notes.
* Bytes are `Nat` (values < 256 where it matters); strings are `List Char`.
* `crc32` embeds the CRC-32/ISO-HDLC checksum used by `crc32fast::hash`
  (reflected polynomial 0xEDB88320, initial value 0xFFFFFFFF, final xor
  0xFFFFFFFF), computed bit by bit.
* Rust's stable `sort_by` is embedded as a stable insertion sort `sortS`:
  the output of a stable sort is uniquely determined by the comparator and
  the input, so any stable sorting algorithm is an observationally faithful
  embedding.
* A Rust panic (the `%` by zero in `get_alphabet` when a CRC32 hash is zero,
  and the `expect` in `Base64::new`) is embedded as `Option.none`.
-/

namespace Base64Secret

/-- CRC32: one reflected polynomial step on the running remainder. -/
def crc32Step (c : Nat) : Nat :=
  if c % 2 = 1 then (c / 2) ^^^ 0xEDB88320 else c / 2

/-- CRC32: iterate `crc32Step` `n` times. -/
def crc32Steps : Nat → Nat → Nat
  | 0, c => c
  | n + 1, c => crc32Steps n (crc32Step c)

/-- CRC32: absorb one input byte into the running remainder. -/
def crc32Update (c b : Nat) : Nat :=
  crc32Steps 8 (c ^^^ b % 256)

/-- CRC-32/ISO-HDLC of a byte sequence, as computed by `crc32fast::hash`. -/
def crc32 (data : List Nat) : Nat :=
  (data.foldl crc32Update 0xFFFFFFFF) ^^^ 0xFFFFFFFF

/-- The canonical ordered 64-symbol set (base64-url alphabet before
permutation), the string literal in `Base64::get_alphabet`. -/
def SYMBOLS : List Char :=
  "ABCDEFGHIJKLMNOPQRSTUVWXYZabcdefghijklmnopqrstuvwxyz0123456789-_".toList

/-- Stable insertion: place `x` directly before the first element `y` of the
(already sorted) list with `le x y`; `x` therefore lands after every earlier
element it ties with once `sortS` folds from the left. -/
def insertS (le : α → α → Bool) (x : α) : List α → List α
  | [] => [x]
  | y :: ys => if le x y then x :: y :: ys else y :: insertS le x ys

/-- Stable insertion sort: the embedding of Rust's stable `slice::sort_by`. -/
def sortS (le : α → α → Bool) : List α → List α
  | [] => []
  | x :: xs => insertS le x (sortS le xs)

/-- The per-symbol weights of `Base64::get_alphabet`: symbol `c` at index `i`
weighs `crc32(utf8(c)) % hash` for even `i` and `% rev_hash` for odd `i`. -/
def weightPairs (hash revHash : Nat) : List (Char × Nat) :=
  SYMBOLS.enum.map (fun p =>
    (p.2, crc32 [p.2.toNat] % (if p.1 % 2 = 0 then hash else revHash)))

/-- The `sort_by` comparator of `Base64::get_alphabet`, `b.1.cmp(&a.1)`:
`a` may stay before `b` exactly when the weight of `a` is at least the
weight of `b` (descending weights). -/
def byWeightDesc (a b : Char × Nat) : Bool :=
  b.2 ≤ a.2

/-- `Base64::get_alphabet`: weigh every canonical symbol by CRC32 and sort by
weight descending with Rust's stable `sort_by`. `none` embeds the
division-by-zero panic of `%` when either hash is zero (index 0 uses `hash`,
index 1 uses `rev_hash`, so both are always demanded). -/
def get_alphabet (key : List Nat) : Option (List Char) :=
  let hash := crc32 key
  let revHash := crc32 key.reverse
  if hash = 0 ∨ revHash = 0 then none
  else some ((sortS byWeightDesc (weightPairs hash revHash)).map Prod.fst)

/-- Modelled from the spec: §4.1 step 4's order on indexed `(symbol, weight)`
pairs — weight descending, ties broken by original index ascending. -/
def byWeightDescIdxAsc (a b : Nat × Char × Nat) : Bool :=
  b.2.2 < a.2.2 ∨ (a.2.2 = b.2.2 ∧ a.1 ≤ b.1)

/-- Modelled from the spec: the reference alphabet derivation of §4.1, the
64 `(symbol, weight)` pairs stably sorted by weight descending with ties
broken by original index ascending (a total order, under which a stable
sort is just a sort). -/
def specDeriveAlphabet (key : List Nat) : Option (List Char) :=
  let hash := crc32 key
  let revHash := crc32 key.reverse
  if hash = 0 ∨ revHash = 0 then none
  else some ((sortS byWeightDescIdxAsc
    ((weightPairs hash revHash).enum)).map (fun p => p.2.1))

/-- Modelled from the spec: the decode error taxonomy of §4.2 / §7 of the
external base64 engine (`base64::DecodeError`). -/
inductive DecodeError where
  | invalidByte
  | invalidPadding
  | invalidLength
  | invalidLastSymbol
deriving DecidableEq

/-- Modelled from the spec: the radix-64 bit-packing step of the external
base64 engine's `encode` — bytes to 6-bit groups, no padding appended
(`with_encode_padding(false)`). -/
def encodeSextets : List Nat → List Nat
  | [] => []
  | [b0] => [b0 / 4, b0 % 4 * 16]
  | [b0, b1] => [b0 / 4, b0 % 4 * 16 + b1 / 16, b1 % 16 * 4]
  | b0 :: b1 :: b2 :: rest =>
      b0 / 4 :: (b0 % 4 * 16 + b1 / 16) :: (b1 % 16 * 4 + b2 / 64) :: b2 % 64 ::
        encodeSextets rest

/-- `Base64::encode`: map each 6-bit group to its symbol in the derived
alphabet. -/
def encode (alpha : List Char) (input : List Nat) : List Char :=
  (encodeSextets input).map (fun v => alpha.getD v 'A')

/-- Modelled from the spec: the radix-64 bit-unpacking step of the external
base64 engine's `decode` — 6-bit groups back to bytes; `none` when the
trailing symbol carries non-zero trailing bits
(`with_decode_allow_trailing_bits(false)`), or when the group count is
≡ 1 (mod 4), which the caller rules out beforehand. -/
def decodeQuads : List Nat → Option (List Nat)
  | [] => some []
  | [_] => none
  | [a, b] => if b % 16 = 0 then some [a * 4 + b / 16] else none
  | [a, b, c] =>
      if c % 4 = 0 then some [a * 4 + b / 16, b % 16 * 16 + c / 4] else none
  | a :: b :: c :: d :: rest =>
      (decodeQuads rest).map
        (fun r => (a * 4 + b / 16) :: (b % 16 * 16 + c / 4) :: (c % 4 * 64 + d) :: r)

/-- `Base64::decode`, with the engine modelled from the spec: reject any
padding character (`DecodePaddingMode::RequireNone`), reject characters
outside the derived alphabet, reject lengths inconsistent with an unpadded
radix-64 encoding, then unpack, rejecting non-zero trailing bits. -/
def decode (alpha : List Char) (input : List Char) :
    Except DecodeError (List Nat) :=
  if input.any (fun c => c == '=') then .error .invalidPadding
  else if input.any (fun c => !(alpha.contains c)) then .error .invalidByte
  else if input.length % 4 = 1 then .error .invalidLength
  else
    match decodeQuads (input.map (fun c => List.indexOf c alpha)) with
    | some bytes => .ok bytes
    | none => .error .invalidLastSymbol

/-- `Base64::new`: derive the alphabet and pair it with the fixed engine
configuration; `none` embeds both panic sites (the `%` by zero inside
`get_alphabet` and the `expect("alphabet")`, the latter never firing when
derivation completes). -/
def Base64.new (key : List Nat) : Option (List Char) :=
  get_alphabet key

/-! ### Lemmas about the stable insertion sort -/

theorem insertS_perm (le : α → α → Bool) (x : α) (l : List α) :
    (insertS le x l).Perm (x :: l) := by
  induction l with
  | nil => exact List.Perm.refl _
  | cons y ys ih =>
    simp only [insertS]
    split
    · exact List.Perm.refl _
    · exact (ih.cons y).trans (List.Perm.swap x y ys)

theorem sortS_perm (le : α → α → Bool) (l : List α) : (sortS le l).Perm l := by
  induction l with
  | nil => exact List.Perm.refl _
  | cons x xs ih => exact (insertS_perm le x (sortS le xs)).trans (ih.cons x)

theorem insertS_congr {le₁ le₂ : α → α → Bool} (x : α) (l : List α)
    (h : ∀ y ∈ l, le₁ x y = le₂ x y) : insertS le₁ x l = insertS le₂ x l := by
  induction l with
  | nil => rfl
  | cons y ys ih =>
    simp only [insertS, h y (List.mem_cons_self y ys)]
    split
    · rfl
    · rw [ih (fun z hz => h z (List.mem_cons_of_mem y hz))]

theorem sortS_congr {le₁ le₂ : α → α → Bool} {l : List α}
    (h : l.Pairwise fun a b => le₁ a b = le₂ a b) : sortS le₁ l = sortS le₂ l := by
  induction l with
  | nil => rfl
  | cons x xs ih =>
    obtain ⟨hx, hxs⟩ := List.pairwise_cons.mp h
    simp only [sortS, ih hxs]
    exact insertS_congr x (sortS le₂ xs)
      (fun y hy => hx y ((sortS_perm le₂ xs).mem_iff.mp hy))

theorem insertS_map (f : α → β) (le : β → β → Bool) (x : α) (l : List α) :
    insertS le (f x) (l.map f) = (insertS (fun a b => le (f a) (f b)) x l).map f := by
  induction l with
  | nil => rfl
  | cons y ys ih =>
    simp only [List.map_cons, insertS]
    split
    · simp [List.map_cons]
    · simp only [List.map_cons, ih]

theorem sortS_map (f : α → β) (le : β → β → Bool) (l : List α) :
    sortS le (l.map f) = (sortS (fun a b => le (f a) (f b)) l).map f := by
  induction l with
  | nil => rfl
  | cons x xs ih => simp only [List.map_cons, sortS, ih, insertS_map]

/-! ### Lemmas about `enumFrom` indices -/

theorem le_fst_of_mem_enumFrom {l : List α} {n : Nat} {p : Nat × α}
    (h : p ∈ l.enumFrom n) : n ≤ p.1 := by
  induction l generalizing n with
  | nil => simp [List.enumFrom] at h
  | cons x xs ih =>
    rcases List.mem_cons.mp h with h | h
    · subst h; exact Nat.le_refl _
    · exact Nat.le_of_succ_le (ih h)

theorem pairwise_fst_lt_enumFrom (n : Nat) (l : List α) :
    (l.enumFrom n).Pairwise fun x y => x.1 < y.1 := by
  induction l generalizing n with
  | nil => exact List.Pairwise.nil
  | cons x xs ih =>
    exact List.pairwise_cons.mpr ⟨fun y hy => le_fst_of_mem_enumFrom hy, ih (n + 1)⟩

theorem pairwise_fst_lt_enum (l : List α) :
    l.enum.Pairwise fun x y => x.1 < y.1 :=
  pairwise_fst_lt_enumFrom 0 l

/-! ### The derived alphabet is a permutation of the canonical symbols -/

theorem symbols_length : SYMBOLS.length = 64 := rfl

theorem symbols_nodup : SYMBOLS.Nodup := by decide

theorem weightPairs_map_fst (hash revHash : Nat) :
    (weightPairs hash revHash).map Prod.fst = SYMBOLS := by
  simp only [weightPairs, List.map_map]
  exact List.enum_map_snd SYMBOLS

theorem get_alphabet_some {k : List Nat} {l : List Char}
    (h : get_alphabet k = some l) :
    l = (sortS byWeightDesc (weightPairs (crc32 k) (crc32 k.reverse))).map Prod.fst := by
  simp only [get_alphabet] at h
  split at h
  · exact absurd h (by simp)
  · exact (Option.some.inj h).symm

theorem get_alphabet_hash_ne {k : List Nat} {l : List Char}
    (h : get_alphabet k = some l) : ¬(crc32 k = 0 ∨ crc32 k.reverse = 0) := by
  simp only [get_alphabet] at h
  split at h
  · exact absurd h (by simp)
  · assumption

theorem alphabet_perm {k : List Nat} {l : List Char}
    (h : get_alphabet k = some l) : l.Perm SYMBOLS := by
  rw [get_alphabet_some h]
  have h1 := (sortS_perm byWeightDesc (weightPairs (crc32 k) (crc32 k.reverse))).map Prod.fst
  rw [weightPairs_map_fst] at h1
  exact h1

theorem alphabet_length {k : List Nat} {l : List Char}
    (h : get_alphabet k = some l) : l.length = 64 :=
  (alphabet_perm h).length_eq.trans symbols_length

theorem alphabet_nodup {k : List Nat} {l : List Char}
    (h : get_alphabet k = some l) : l.Nodup :=
  ((alphabet_perm h).nodup_iff).mpr symbols_nodup

theorem alphabet_mem_symbols {k : List Nat} {l : List Char}
    (h : get_alphabet k = some l) : ∀ c ∈ l, c ∈ SYMBOLS :=
  fun _ hc => (alphabet_perm h).mem_iff.mp hc

theorem eq_not_mem_alphabet {k : List Nat} {l : List Char}
    (h : get_alphabet k = some l) : '=' ∉ l :=
  fun hc => absurd (alphabet_mem_symbols h '=' hc) (by decide)

/-! ### The source derivation agrees with the spec's reference derivation -/

theorem sortS_weight_eq_lex (wp : List (Char × Nat)) :
    sortS byWeightDescIdxAsc wp.enum
      = sortS (fun a b : Nat × Char × Nat => byWeightDesc a.2 b.2) wp.enum := by
  apply sortS_congr
  refine (pairwise_fst_lt_enum wp).imp ?_
  intro a b hab
  simp only [byWeightDescIdxAsc, byWeightDesc]
  rw [decide_eq_decide]
  omega

theorem spec_eq_get_alphabet {k : List Nat} {l : List Char}
    (h : get_alphabet k = some l) : specDeriveAlphabet k = some l := by
  have hne := get_alphabet_hash_ne h
  rw [get_alphabet_some h]
  simp only [specDeriveAlphabet]
  rw [if_neg hne]
  refine congrArg some ?_
  rw [sortS_weight_eq_lex]
  have hmap := sortS_map Prod.snd byWeightDesc
    ((weightPairs (crc32 k) (crc32 k.reverse)).enum)
  rw [List.enum_map_snd] at hmap
  rw [hmap, List.map_map]
  rfl

theorem get_alphabet_some_of_nonzero {k : List Nat}
    (h₁ : crc32 k ≠ 0) (h₂ : crc32 k.reverse ≠ 0) :
    get_alphabet k
      = some ((sortS byWeightDesc
          (weightPairs (crc32 k) (crc32 k.reverse))).map Prod.fst) := by
  simp only [get_alphabet]
  rw [if_neg (not_or.mpr ⟨h₁, h₂⟩)]

/-! ### Claim theorems about alphabet derivation -/

/-- C2 (counterexample): the claim "Alphabet derivation is total with no
failure modes ... including the empty sequence ... never panics" is false at
the empty key: `crc32 [] = 0`, so the weight computation divides by zero,
which in Rust is a panic — embedded here as `none`. -/
theorem alphabet_derivation_panics_on_empty_key :
    crc32 [] = 0 ∧ get_alphabet [] = none :=
  ⟨rfl, rfl⟩

/-- C2 (amended): for every key whose forward and reverse CRC32 hashes are
both non-zero, alphabet derivation completes without panicking and returns a
64-character alphabet. -/
theorem alphabet_derivation_total_of_nonzero_hashes (k : List Nat)
    (h₁ : crc32 k ≠ 0) (h₂ : crc32 k.reverse ≠ 0) :
    ∃ l, get_alphabet k = some l ∧ l.length = 64 :=
  ⟨_, get_alphabet_some_of_nonzero h₁ h₂,
    alphabet_length (get_alphabet_some_of_nonzero h₁ h₂)⟩

/-- C2 (witness): the key `"test"` satisfies the non-zero-hash hypotheses and
derivation yields a 64-character alphabet. -/
theorem alphabet_derivation_total_witness :
    crc32 [116, 101, 115, 116] ≠ 0 ∧ crc32 [116, 101, 115, 116].reverse ≠ 0 ∧
    ∃ l, get_alphabet [116, 101, 115, 116] = some l ∧ l.length = 64 :=
  ⟨by decide, by decide,
    alphabet_derivation_total_of_nonzero_hashes [116, 101, 115, 116]
      (by decide) (by decide)⟩

/-- C3: for every key on which derivation completes, the derived alphabet is
a permutation of the canonical 64-symbol set `A-Z a-z 0-9 - _`. -/
theorem derived_alphabet_perm_canonical (k : List Nat) (l : List Char)
    (h : get_alphabet k = some l) : l.Perm SYMBOLS :=
  alphabet_perm h

/-- C3 (witness): the alphabet derived from the key `"test"` is a permutation
of the canonical symbol set. -/
theorem derived_alphabet_perm_canonical_witness :
    get_alphabet [116, 101, 115, 116]
      = some "EAQUYTPXLHDd-lh9xt51pjnfb3rv7zZRVFBJNCGOK_Wy8S6qw04s2ueaoimkcIMg".toList ∧
    ("EAQUYTPXLHDd-lh9xt51pjnfb3rv7zZRVFBJNCGOK_Wy8S6qw04s2ueaoimkcIMg".toList).Perm
      SYMBOLS :=
  ⟨rfl, derived_alphabet_perm_canonical [116, 101, 115, 116] _ rfl⟩

/-- C4: alphabet derivation is deterministic — any two evaluations of
`get_alphabet` on the same key that complete yield identical sequences. -/
theorem derived_alphabet_deterministic (k : List Nat) (l₁ l₂ : List Char)
    (h₁ : get_alphabet k = some l₁) (h₂ : get_alphabet k = some l₂) : l₁ = l₂ :=
  Option.some.inj (h₁.symm.trans h₂)

/-- C4 (witness): two evaluations on the key `"test"` yield the same
alphabet. -/
theorem derived_alphabet_deterministic_witness :
    get_alphabet [116, 101, 115, 116]
      = some "EAQUYTPXLHDd-lh9xt51pjnfb3rv7zZRVFBJNCGOK_Wy8S6qw04s2ueaoimkcIMg".toList ∧
    "EAQUYTPXLHDd-lh9xt51pjnfb3rv7zZRVFBJNCGOK_Wy8S6qw04s2ueaoimkcIMg".toList
      = "EAQUYTPXLHDd-lh9xt51pjnfb3rv7zZRVFBJNCGOK_Wy8S6qw04s2ueaoimkcIMg".toList :=
  ⟨rfl, derived_alphabet_deterministic [116, 101, 115, 116] _ _ rfl rfl⟩

/-- C5: for every key on which derivation completes, `get_alphabet` equals
the spec's reference computation — CRC32 weights with alternating
forward/reverse divisors, stably sorted by weight descending with ties broken
by original index ascending. -/
theorem get_alphabet_matches_spec_reference (k : List Nat) (l : List Char)
    (h : get_alphabet k = some l) : specDeriveAlphabet k = some l :=
  spec_eq_get_alphabet h

/-- C5 (witness): on the key `"test"` the source derivation and the spec's
reference computation produce the same alphabet. -/
theorem get_alphabet_matches_spec_reference_witness :
    get_alphabet [116, 101, 115, 116]
      = some "EAQUYTPXLHDd-lh9xt51pjnfb3rv7zZRVFBJNCGOK_Wy8S6qw04s2ueaoimkcIMg".toList ∧
    specDeriveAlphabet [116, 101, 115, 116]
      = some "EAQUYTPXLHDd-lh9xt51pjnfb3rv7zZRVFBJNCGOK_Wy8S6qw04s2ueaoimkcIMg".toList :=
  ⟨rfl, get_alphabet_matches_spec_reference [116, 101, 115, 116] _ rfl⟩

/-- C10: under the precondition that both CRC32 hashes of the key are
non-zero, `get_alphabet` returns 64 distinct characters all drawn from the
valid base64 symbol set, so `Alphabet::new` succeeds and the
`expect("alphabet")` in `Base64::new` never fires. -/
theorem alphabet_new_expect_unreachable (k : List Nat)
    (h₁ : crc32 k ≠ 0) (h₂ : crc32 k.reverse ≠ 0) :
    ∃ l, get_alphabet k = some l ∧ l.length = 64 ∧ l.Nodup ∧
      ∀ c ∈ l, c ∈ SYMBOLS := by
  have hl := get_alphabet_some_of_nonzero h₁ h₂
  exact ⟨_, hl, alphabet_length hl, alphabet_nodup hl, alphabet_mem_symbols hl⟩

/-- C10 (witness): instantiated at the key `"test"`. -/
theorem alphabet_new_expect_unreachable_witness :
    crc32 [116, 101, 115, 116] ≠ 0 ∧ crc32 [116, 101, 115, 116].reverse ≠ 0 ∧
    ∃ l, get_alphabet [116, 101, 115, 116] = some l ∧ l.length = 64 ∧
      l.Nodup ∧ ∀ c ∈ l, c ∈ SYMBOLS :=
  ⟨by decide, by decide,
    alphabet_new_expect_unreachable [116, 101, 115, 116] (by decide) (by decide)⟩

/-! ### Lemmas about the radix-64 bit-packing -/

theorem encodeSextets_length (b : List Nat) :
    (encodeSextets b).length = (4 * b.length + 2) / 3 := by
  induction b using encodeSextets.induct with
  | case1 => simp [encodeSextets]
  | case2 b0 => simp [encodeSextets]
  | case3 b0 b1 => simp [encodeSextets]
  | case4 b0 b1 b2 rest ih =>
    simp only [encodeSextets, List.length_cons, ih]
    omega

theorem encodeSextets_lt (b : List Nat) :
    (∀ x ∈ b, x < 256) → ∀ v ∈ encodeSextets b, v < 64 := by
  induction b using encodeSextets.induct with
  | case1 => intro _ v hv; simp [encodeSextets] at hv
  | case2 b0 =>
    intro hb v hv
    have h0 := hb b0 (by simp)
    simp only [encodeSextets, List.mem_cons, List.not_mem_nil, or_false] at hv
    rcases hv with h | h <;> omega
  | case3 b0 b1 =>
    intro hb v hv
    have h0 := hb b0 (by simp)
    have h1 := hb b1 (by simp)
    simp only [encodeSextets, List.mem_cons, List.not_mem_nil, or_false] at hv
    rcases hv with h | h | h <;> omega
  | case4 b0 b1 b2 rest ih =>
    intro hb v hv
    have h0 := hb b0 (by simp)
    have h1 := hb b1 (by simp)
    have h2 := hb b2 (by simp)
    simp only [encodeSextets, List.mem_cons] at hv
    rcases hv with h | h | h | h | h
    · omega
    · omega
    · omega
    · omega
    · exact ih (fun x hx => hb x (by simp [hx])) v h

theorem decodeQuads_encodeSextets (b : List Nat) :
    (∀ x ∈ b, x < 256) → decodeQuads (encodeSextets b) = some b := by
  induction b using encodeSextets.induct with
  | case1 => intro _; rfl
  | case2 b0 =>
    intro hb
    have h0 := hb b0 (by simp)
    simp only [encodeSextets, decodeQuads]
    rw [if_pos (by omega)]
    refine congrArg some ?_
    have e1 : b0 / 4 * 4 + b0 % 4 * 16 / 16 = b0 := by omega
    rw [e1]
  | case3 b0 b1 =>
    intro hb
    have h0 := hb b0 (by simp)
    have h1 := hb b1 (by simp)
    simp only [encodeSextets, decodeQuads]
    rw [if_pos (by omega)]
    refine congrArg some ?_
    have e1 : b0 / 4 * 4 + (b0 % 4 * 16 + b1 / 16) / 16 = b0 := by omega
    have e2 : (b0 % 4 * 16 + b1 / 16) % 16 * 16 + b1 % 16 * 4 / 4 = b1 := by omega
    rw [e1, e2]
  | case4 b0 b1 b2 rest ih =>
    intro hb
    have h0 := hb b0 (by simp)
    have h1 := hb b1 (by simp)
    have h2 := hb b2 (by simp)
    have hrest : ∀ x ∈ rest, x < 256 := fun x hx => hb x (by simp [hx])
    simp only [encodeSextets, decodeQuads, ih hrest, Option.map_some']
    refine congrArg some ?_
    have e1 : b0 / 4 * 4 + (b0 % 4 * 16 + b1 / 16) / 16 = b0 := by omega
    have e2 : (b0 % 4 * 16 + b1 / 16) % 16 * 16 + (b1 % 16 * 4 + b2 / 64) / 4 = b1 := by
      omega
    have e3 : (b1 % 16 * 4 + b2 / 64) % 4 * 64 + b2 % 64 = b2 := by omega
    rw [e1, e2, e3]

/-! ### Lemmas connecting alphabet lookups to sextets -/

theorem indexOf_getD {alpha : List Char} (hn : alpha.Nodup) {v : Nat}
    (hv : v < alpha.length) : List.indexOf (alpha.getD v 'A') alpha = v := by
  have h := List.get_indexOf hn ⟨v, hv⟩
  rw [List.get_eq_getElem] at h
  rw [List.getD_eq_getElem alpha 'A' hv]
  exact h

theorem getD_mem {alpha : List Char} (hd : 'A' ∈ alpha) (v : Nat) :
    alpha.getD v 'A' ∈ alpha := by
  by_cases hv : v < alpha.length
  · rw [List.getD_eq_getElem alpha 'A' hv]
    exact List.getElem_mem hv
  · rw [List.getD_eq_default alpha 'A' (Nat.le_of_not_lt hv)]
    exact hd

theorem map_getD_indexOf {alpha : List Char} (hn : alpha.Nodup) {vs : List Nat}
    (hvs : ∀ v ∈ vs, v < alpha.length) :
    (vs.map (fun v => alpha.getD v 'A')).map (fun c => List.indexOf c alpha) = vs := by
  induction vs with
  | nil => rfl
  | cons v t ih =>
    simp only [List.map_cons]
    rw [indexOf_getD hn (hvs v (List.mem_cons_self v t)),
      ih (fun x hx => hvs x (List.mem_cons_of_mem v hx))]

theorem mem_A_alphabet {k : List Nat} {alpha : List Char}
    (ha : get_alphabet k = some alpha) : 'A' ∈ alpha :=
  (alphabet_perm ha).mem_iff.mpr (by decide)

theorem encode_mem_alpha {alpha : List Char} (hd : 'A' ∈ alpha) (b : List Nat) :
    ∀ c ∈ encode alpha b, c ∈ alpha := by
  intro c hc
  simp only [encode, List.mem_map] at hc
  obtain ⟨v, _, rfl⟩ := hc
  exact getD_mem hd v

/-! ### Claim theorems about the codec -/

/-- C1: for every key on which derivation completes and every byte sequence,
decoding the result of encoding with the same codec instance succeeds and
returns exactly the original bytes. -/
theorem round_trip_same_codec (k : List Nat) (alpha : List Char) (b : List Nat)
    (ha : get_alphabet k = some alpha) (hb : ∀ x ∈ b, x < 256) :
    decode alpha (encode alpha b) = .ok b := by
  have hn := alphabet_nodup ha
  have hlen := alphabet_length ha
  have hmem : ∀ c ∈ encode alpha b, c ∈ alpha := encode_mem_alpha (mem_A_alphabet ha) b
  have g1 : ¬((encode alpha b).any (fun c => c == '=') = true) := by
    intro hx
    obtain ⟨c, hc, hbeq⟩ := List.any_eq_true.mp hx
    exact eq_not_mem_alphabet ha (eq_of_beq hbeq ▸ hmem c hc)
  have g2 : ¬((encode alpha b).any (fun c => !(alpha.contains c)) = true) := by
    intro hx
    obtain ⟨c, hc, hb2⟩ := List.any_eq_true.mp hx
    have hcm : List.elem c alpha = true := List.elem_iff.mpr (hmem c hc)
    have hb2' : (!(List.elem c alpha)) = true := hb2
    rw [hcm] at hb2'
    simp at hb2'
  have g3 : ¬((encode alpha b).length % 4 = 1) := by
    rw [encode, List.length_map, encodeSextets_length]
    omega
  simp only [decode]
  rw [if_neg g1, if_neg g2, if_neg g3, encode,
    map_getD_indexOf hn (fun v hv => hlen ▸ encodeSextets_lt b hb v hv),
    decodeQuads_encodeSextets b hb]

/-- C1 (witness): with the codec built from the key `"test"`, encoding and
then decoding the bytes of `"test"` returns them unchanged. -/
theorem round_trip_same_codec_witness :
    get_alphabet [116, 101, 115, 116]
      = some "EAQUYTPXLHDd-lh9xt51pjnfb3rv7zZRVFBJNCGOK_Wy8S6qw04s2ueaoimkcIMg".toList ∧
    (∀ x ∈ [116, 101, 115, 116], x < 256) ∧
    decode "EAQUYTPXLHDd-lh9xt51pjnfb3rv7zZRVFBJNCGOK_Wy8S6qw04s2ueaoimkcIMg".toList
      (encode "EAQUYTPXLHDd-lh9xt51pjnfb3rv7zZRVFBJNCGOK_Wy8S6qw04s2ueaoimkcIMg".toList
        [116, 101, 115, 116]) = .ok [116, 101, 115, 116] :=
  ⟨rfl, by decide,
    round_trip_same_codec [116, 101, 115, 116] _ [116, 101, 115, 116] rfl (by decide)⟩

/-- C6: for every key on which derivation completes, encode is total, its
output length is `ceil(8 * inputLen / 6)`, the output never contains the
padding character, and encode of the empty input is empty. -/
theorem encode_length_no_padding (k : List Nat) (alpha : List Char)
    (ha : get_alphabet k = some alpha) (b : List Nat) :
    (encode alpha b).length = (8 * b.length + 5) / 6 ∧
    '=' ∉ encode alpha b ∧
    encode alpha [] = [] := by
  refine ⟨?_, ?_, rfl⟩
  · rw [encode, List.length_map, encodeSextets_length]
    omega
  · intro hc
    exact eq_not_mem_alphabet ha (encode_mem_alpha (mem_A_alphabet ha) b '=' hc)

/-- C6 (witness): instantiated at the key `"test"` and the three-byte input
`[1, 2, 3]`, whose encoding has length `4 = ceil(24 / 6)`. -/
theorem encode_length_no_padding_witness :
    get_alphabet [116, 101, 115, 116]
      = some "EAQUYTPXLHDd-lh9xt51pjnfb3rv7zZRVFBJNCGOK_Wy8S6qw04s2ueaoimkcIMg".toList ∧
    (encode "EAQUYTPXLHDd-lh9xt51pjnfb3rv7zZRVFBJNCGOK_Wy8S6qw04s2ueaoimkcIMg".toList
        [1, 2, 3]).length = (8 * [1, 2, 3].length + 5) / 6 ∧
    '=' ∉ encode "EAQUYTPXLHDd-lh9xt51pjnfb3rv7zZRVFBJNCGOK_Wy8S6qw04s2ueaoimkcIMg".toList
        [1, 2, 3] ∧
    encode "EAQUYTPXLHDd-lh9xt51pjnfb3rv7zZRVFBJNCGOK_Wy8S6qw04s2ueaoimkcIMg".toList [] = [] :=
  ⟨rfl, encode_length_no_padding [116, 101, 115, 116] _ rfl [1, 2, 3]⟩

/-! ### Characterizing decode failures -/

theorem decodeQuads_none (vs : List Nat) :
    decodeQuads vs = none → vs.length % 4 ≠ 1 →
    ∃ w, vs.getLast? = some w ∧
      ((vs.length % 4 = 2 ∧ w % 16 ≠ 0) ∨ (vs.length % 4 = 3 ∧ w % 4 ≠ 0)) := by
  induction vs using decodeQuads.induct with
  | case1 =>
    intro h _
    simp [decodeQuads] at h
  | case2 a =>
    intro _ hl
    simp at hl
  | case3 a b hc =>
    intro h _
    rw [decodeQuads, if_pos hc] at h
    simp at h
  | case4 a b hc =>
    intro _ _
    exact ⟨b, rfl, Or.inl ⟨by simp, hc⟩⟩
  | case5 a b c hc =>
    intro h _
    rw [decodeQuads, if_pos hc] at h
    simp at h
  | case6 a b c hc =>
    intro _ _
    exact ⟨c, rfl, Or.inr ⟨by simp, hc⟩⟩
  | case7 a b c d rest ih =>
    intro h hl
    simp only [decodeQuads] at h
    have hr : decodeQuads rest = none := by
      rcases hrr : decodeQuads rest with _ | x
      · rfl
      · rw [hrr] at h
        simp at h
    have hl' : rest.length % 4 ≠ 1 := by
      simp only [List.length_cons] at hl
      omega
    obtain ⟨w, hw, hcase⟩ := ih hr hl'
    have hne : rest ≠ [] := by
      intro he
      rw [he] at hr
      simp [decodeQuads] at hr
    obtain ⟨r0, rtail, rfl⟩ := List.exists_cons_of_ne_nil hne
    refine ⟨w, ?_, ?_⟩
    · simp only [List.getLast?_cons_cons]
      exact hw
    · rcases hcase with ⟨h1, h2⟩ | ⟨h1, h2⟩
      · refine Or.inl ⟨?_, h2⟩
        simp only [List.length_cons] at h1 ⊢
        omega
      · refine Or.inr ⟨?_, h2⟩
        simp only [List.length_cons] at h1 ⊢
        omega

/-- C7: decode fails only with the four recoverable error kinds, each under
its spec condition — invalidPadding only when a padding character is in the
input, invalidByte only when some input character is outside the derived
alphabet, invalidLength only when the input length is ≡ 1 (mod 4), and
invalidLastSymbol only when the trailing symbol carries non-zero trailing
bits; encode is total by construction and never returns an error. -/
theorem decode_error_taxonomy (k : List Nat) (alpha : List Char)
    (_ha : get_alphabet k = some alpha) (s : List Char) (e : DecodeError)
    (h : decode alpha s = .error e) :
    (e = .invalidPadding → '=' ∈ s) ∧
    (e = .invalidByte → ∃ c ∈ s, c ∉ alpha) ∧
    (e = .invalidLength → s.length % 4 = 1) ∧
    (e = .invalidLastSymbol →
      ∃ w, (s.map (fun c => List.indexOf c alpha)).getLast? = some w ∧
        ((s.length % 4 = 2 ∧ w % 16 ≠ 0) ∨ (s.length % 4 = 3 ∧ w % 4 ≠ 0))) := by
  simp only [decode] at h
  split at h
  next h1 =>
    have he : e = .invalidPadding := (Except.error.inj h).symm
    subst he
    obtain ⟨c, hc, hbeq⟩ := List.any_eq_true.mp h1
    refine ⟨fun _ => eq_of_beq hbeq ▸ hc, ?_, ?_, ?_⟩ <;> intro hcon <;>
      exact absurd hcon (by decide)
  next h1 =>
    split at h
    next h2 =>
      have he : e = .invalidByte := (Except.error.inj h).symm
      subst he
      obtain ⟨c, hc, hb2⟩ := List.any_eq_true.mp h2
      have hcnot : c ∉ alpha := by
        intro hcm
        have hb2' : (!(List.elem c alpha)) = true := hb2
        rw [List.elem_iff.mpr hcm] at hb2'
        simp at hb2'
      refine ⟨?_, fun _ => ⟨c, hc, hcnot⟩, ?_, ?_⟩ <;> intro hcon <;>
        exact absurd hcon (by decide)
    next h2 =>
      split at h
      next h3 =>
        have he : e = .invalidLength := (Except.error.inj h).symm
        subst he
        refine ⟨?_, ?_, fun _ => h3, ?_⟩ <;> intro hcon <;>
          exact absurd hcon (by decide)
      next h3 =>
        split at h
        next bytes hbytes =>
          simp at h
        next hnone =>
          have he : e = .invalidLastSymbol := (Except.error.inj h).symm
          subst he
          have hlen : (s.map (fun c => List.indexOf c alpha)).length % 4 ≠ 1 := by
            rw [List.length_map]
            exact h3
          obtain ⟨w, hw, hcase⟩ := decodeQuads_none _ hnone hlen
          rw [List.length_map] at hcase
          refine ⟨?_, ?_, ?_, fun _ => ⟨w, hw, hcase⟩⟩ <;> intro hcon <;>
            exact absurd hcon (by decide)

/-- C7 (witness): with the codec of the key `"test"`, decoding the input
consisting of one padding character fails with `invalidPadding`, and the
padding character is indeed in the input. -/
theorem decode_error_taxonomy_witness :
    get_alphabet [116, 101, 115, 116]
      = some "EAQUYTPXLHDd-lh9xt51pjnfb3rv7zZRVFBJNCGOK_Wy8S6qw04s2ueaoimkcIMg".toList ∧
    decode "EAQUYTPXLHDd-lh9xt51pjnfb3rv7zZRVFBJNCGOK_Wy8S6qw04s2ueaoimkcIMg".toList ['=']
      = .error .invalidPadding ∧
    '=' ∈ ['='] :=
  ⟨rfl, rfl,
    (decode_error_taxonomy [116, 101, 115, 116]
      "EAQUYTPXLHDd-lh9xt51pjnfb3rv7zZRVFBJNCGOK_Wy8S6qw04s2ueaoimkcIMg".toList
      rfl ['='] .invalidPadding rfl).1 rfl⟩

set_option maxRecDepth 40000 in
/-- C8: with the codec built from the key bytes
`"long and random key\0test\0"` (NUL bytes embedded), decoding the literal
string `"t0mvt-"` succeeds and yields the bytes of `"test"` — the fixed
regression vector of the test suite. -/
theorem regression_vector_decode :
    (get_alphabet [108, 111, 110, 103, 32, 97, 110, 100, 32, 114, 97, 110,
        100, 111, 109, 32, 107, 101, 121, 0, 116, 101, 115, 116, 0]).map
      (fun alpha => decode alpha "t0mvt-".toList)
      = some (Except.ok [116, 101, 115, 116]) :=
  rfl

set_option maxRecDepth 40000 in
/-- C9: encoding the bytes of `"test"` with the codec of key `"test"` yields
`"zPjszE"`; decoding that with the codec of key `"test1"` returns an error
(`invalidLastSymbol`), while decoding it with the codec of key `"test"`
succeeds and returns the original bytes. -/
theorem wrong_key_decode_fails :
    get_alphabet [116, 101, 115, 116]
      = some "EAQUYTPXLHDd-lh9xt51pjnfb3rv7zZRVFBJNCGOK_Wy8S6qw04s2ueaoimkcIMg".toList ∧
    get_alphabet [116, 101, 115, 116, 49]
      = some "Ddlh9xt51pjnfby83rv7q04uezaiZRmIVMFBEAJQNUCGYOK_WS6ws2TPXo-kcLHg".toList ∧
    encode "EAQUYTPXLHDd-lh9xt51pjnfb3rv7zZRVFBJNCGOK_Wy8S6qw04s2ueaoimkcIMg".toList
      [116, 101, 115, 116] = "zPjszE".toList ∧
    decode "Ddlh9xt51pjnfby83rv7q04uezaiZRmIVMFBEAJQNUCGYOK_WS6ws2TPXo-kcLHg".toList
      "zPjszE".toList = .error .invalidLastSymbol ∧
    decode "EAQUYTPXLHDd-lh9xt51pjnfb3rv7zZRVFBJNCGOK_Wy8S6qw04s2ueaoimkcIMg".toList
      "zPjszE".toList = .ok [116, 101, 115, 116] :=
  ⟨rfl, rfl, rfl, rfl, rfl⟩

end Base64Secret
